import Mathlib

/-!
Verification of the PR-comment aggregation engine
(`skills/implementing-pr-review/scripts/fetch_pr_comments.py`).

The Python script is shallowly embedded: a raw inline review comment
record becomes `RawReviewComment`, Python dicts keyed by comment id
become insertion-ordered association lists (`dictInsert`, `dictGet?`)
with Python's dict semantics (assignment to an existing key keeps the
key's insertion position and overwrites the value; `setdefault`
inserts only when the key is absent), and the `gh` transport becomes a
record of `Except`-valued responses.  All functions are total and
computable, so concrete inputs can be evaluated with `decide`/`rfl`.
-/

namespace FetchPRComments

/-- A raw inline review comment record as returned by the REST
endpoint `repos/{repo}/pulls/{number}/comments`.  Fields the script
reads with `c.get(...)` (which tolerates a missing key) are `Option`s;
`user_login` models `c["user"]["login"]`. -/
structure RawReviewComment where
  id : Int
  user_login : String
  path : String
  line : Option Int
  original_line : Option Int
  body : String
  diff_hunk : Option String
  position : Option Int
  in_reply_to_id : Option Int
deriving Repr, DecidableEq

/-- A reply entry `{id, author, body}` as built in the `else` branch of
the partition loop. -/
structure Reply where
  id : Int
  author : String
  body : String
deriving Repr, DecidableEq

/-- An assembled top-level review comment, one element of the script's
`review_comments` list. -/
structure ReviewComment where
  id : Int
  author : String
  path : String
  line : Option Int
  body : String
  diff_hunk : String
  outdated : Bool
  resolved : Bool
  replies : List Reply
deriving Repr, DecidableEq

/-- Python dict assignment `d[k] = v`: overwrite the value at the first
occurrence of `k` (insertion position preserved), or append a fresh
binding at the end. -/
def dictInsert {α : Type} (d : List (Int × α)) (k : Int) (v : α) : List (Int × α) :=
  match d with
  | [] => [(k, v)]
  | (k', v') :: rest =>
    if k' = k then (k', v) :: rest else (k', v') :: dictInsert rest k v

/-- Python dict lookup `d.get(k)`: value at the first binding of `k`,
if any. -/
def dictGet? {α : Type} (d : List (Int × α)) (k : Int) : Option α :=
  match d with
  | [] => none
  | (k', v) :: rest => if k' = k then some v else dictGet? rest k

/-- Python `d.setdefault(k, []).append(r)` on the `replies` dict:
append `r` to the list bound at `k`, creating the binding `k ↦ [r]`
at the end when `k` is absent. -/
def repliesAdd (d : List (Int × List Reply)) (k : Int) (r : Reply) : List (Int × List Reply) :=
  match d with
  | [] => [(k, [r])]
  | (k', v) :: rest =>
    if k' = k then (k', v ++ [r]) :: rest else (k', v) :: repliesAdd rest k r

/-- Python `d.setdefault(k, [])` on the `replies` dict, result
discarded: bind `k ↦ []` at the end when `k` is absent, otherwise
leave the dict unchanged. -/
def setdefaultEmpty (d : List (Int × List Reply)) (k : Int) : List (Int × List Reply) :=
  match d with
  | [] => [(k, [])]
  | (k', v) :: rest =>
    if k' = k then (k', v) :: rest else (k', v) :: setdefaultEmpty rest k

/-- `replies.get(k, [])`. -/
def lookupD (d : List (Int × List Reply)) (k : Int) : List Reply :=
  (dictGet? d k).getD []

/-- The keys of a dict, in insertion order. -/
def keysOf {α : Type} (d : List (Int × α)) : List Int :=
  d.map Prod.fst

/-- The reply entry `{id, author: c["user"]["login"], body}` built from
a raw record. -/
def mkReply (c : RawReviewComment) : Reply :=
  { id := c.id, author := c.user_login, body := c.body }

/-- The two dicts built by the partition loop of `fetch_pr_comments`:
`top_level` (id ↦ raw record) and `replies` (parent id ↦ reply list). -/
structure AssemblyState where
  top_level : List (Int × RawReviewComment)
  replies : List (Int × List Reply)
deriving Repr, DecidableEq

/-- One iteration of the loop `for c in raw_review: ...` in
`fetch_pr_comments`. -/
def partitionStep (st : AssemblyState) (c : RawReviewComment) : AssemblyState :=
  match c.in_reply_to_id with
  | none =>
    { top_level := dictInsert st.top_level c.id c
      replies := setdefaultEmpty st.replies c.id }
  | some parent =>
    { st with replies := repliesAdd st.replies parent (mkReply c) }

/-- The whole partition loop, starting from two empty dicts. -/
def partitionComments (raw : List RawReviewComment) : AssemblyState :=
  raw.foldl partitionStep { top_level := [], replies := [] }

/-- Python truthiness fallback `a or b` on optional integers: `None`
and `0` are falsy, anything else is returned as-is. -/
def pyOr (a b : Option Int) : Option Int :=
  match a with
  | none => b
  | some n => if n = 0 then b else some n

/-- One element of the `review_comments` list comprehension, built from
a stored top-level record `c`, the resolved-id set and the `replies`
dict. -/
def buildReviewComment (resolvedIds : List Int) (rep : List (Int × List Reply))
    (c : RawReviewComment) : ReviewComment :=
  { id := c.id
    author := c.user_login
    path := c.path
    line := pyOr c.line c.original_line
    body := c.body
    diff_hunk := c.diff_hunk.getD ""
    outdated := decide (c.position = none)
    resolved := decide (c.id ∈ resolvedIds)
    replies := lookupD rep c.id }

/-- The partition loop followed by the `review_comments` list
comprehension over `top_level.values()` (insertion order).  The
resolved-id set is carried as a list whose only observation is
membership. -/
def assembleReviewComments (raw : List RawReviewComment) (resolvedIds : List Int) :
    List ReviewComment :=
  (partitionComments raw).top_level.map
    (fun p => buildReviewComment resolvedIds (partitionComments raw).replies p.2)

/-- The replies belonging to parent id `X`, read off directly from the
input sequence: one entry per record whose `in_reply_to_id` is `X`, in
input order.  This is the specification-side description the stateful
dict build is compared against. -/
def repliesFor (raw : List RawReviewComment) (X : Int) : List Reply :=
  match raw with
  | [] => []
  | c :: rest =>
    match c.in_reply_to_id with
    | some p => if p = X then mkReply c :: repliesFor rest X else repliesFor rest X
    | none => repliesFor rest X

end FetchPRComments

namespace FetchPRComments

/-! ### Dictionary lemmas -/

@[simp]
theorem lookupD_nil (X : Int) : lookupD [] X = [] := rfl

@[simp]
theorem lookupD_cons (k' : Int) (v : List Reply) (rest : List (Int × List Reply)) (X : Int) :
    lookupD ((k', v) :: rest) X = if k' = X then v else lookupD rest X := by
  by_cases h : k' = X <;> simp [lookupD, dictGet?, h]

@[simp]
theorem keysOf_nil {α : Type} : keysOf ([] : List (Int × α)) = [] := rfl

@[simp]
theorem keysOf_cons {α : Type} (k : Int) (v : α) (d : List (Int × α)) :
    keysOf ((k, v) :: d) = k :: keysOf d := rfl

theorem lookupD_setdefaultEmpty (d : List (Int × List Reply)) (k X : Int) :
    lookupD (setdefaultEmpty d k) X = lookupD d X := by
  induction d with
  | nil =>
    by_cases h : k = X <;> simp [setdefaultEmpty, h]
  | cons p rest ih =>
    obtain ⟨k', v⟩ := p
    by_cases h : k' = k
    · simp [setdefaultEmpty, h]
    · by_cases h' : k' = X
      · subst h'
        simp [setdefaultEmpty, h]
      · simp [setdefaultEmpty, h, h', ih]

theorem lookupD_repliesAdd (d : List (Int × List Reply)) (k X : Int) (r : Reply) :
    lookupD (repliesAdd d k r) X =
      if X = k then lookupD d k ++ [r] else lookupD d X := by
  induction d with
  | nil =>
    by_cases h : X = k
    · subst h
      simp [repliesAdd]
    · have h2 : ¬k = X := fun hh => h hh.symm
      simp [repliesAdd, h, h2]
  | cons p rest ih =>
    obtain ⟨k', v⟩ := p
    by_cases h : k' = k
    · subst h
      simp only [repliesAdd, if_pos rfl]
      by_cases h' : X = k'
      · subst h'
        simp
      · have h2 : ¬k' = X := fun hh => h' hh.symm
        simp [h', h2]
    · simp only [repliesAdd, if_neg h]
      by_cases h' : k' = X
      · subst h'
        simp [fun hh : k' = k => h hh]
      · simp [h, h', ih]

theorem mem_dictInsert {α : Type} (d : List (Int × α)) (k : Int) (v : α)
    (p : Int × α) (hp : p ∈ dictInsert d k v) : p ∈ d ∨ p = (k, v) := by
  induction d with
  | nil => simpa [dictInsert] using hp
  | cons q rest ih =>
    obtain ⟨k', v'⟩ := q
    by_cases h : k' = k
    · subst h
      rcases (by simpa [dictInsert] using hp : p = (k', v) ∨ p ∈ rest) with h1 | h1
      · exact Or.inr h1
      · exact Or.inl (List.mem_cons_of_mem _ h1)
    · rcases (by simpa [dictInsert, h] using hp : p = (k', v') ∨ p ∈ dictInsert rest k v) with h1 | h1
      · exact Or.inl (by simp [h1])
      · rcases ih h1 with h2 | h2
        · exact Or.inl (List.mem_cons_of_mem _ h2)
        · exact Or.inr h2

theorem mem_keys_dictInsert {α : Type} (d : List (Int × α)) (k : Int) (v : α) (X : Int) :
    X ∈ keysOf (dictInsert d k v) ↔ X = k ∨ X ∈ keysOf d := by
  induction d with
  | nil => simp [dictInsert]
  | cons q rest ih =>
    obtain ⟨k', v'⟩ := q
    by_cases h : k' = k
    · subst h
      have e : dictInsert ((k', v') :: rest) k' v = (k', v) :: rest := by
        simp [dictInsert]
      rw [e, keysOf_cons, keysOf_cons]
      simp only [List.mem_cons]
      tauto
    · have e : dictInsert ((k', v') :: rest) k v = (k', v') :: dictInsert rest k v := by
        simp [dictInsert, h]
      rw [e, keysOf_cons, keysOf_cons]
      simp only [List.mem_cons, ih]
      tauto

theorem nodup_keys_dictInsert {α : Type} (d : List (Int × α)) (k : Int) (v : α)
    (h : (keysOf d).Nodup) : (keysOf (dictInsert d k v)).Nodup := by
  induction d with
  | nil => simp [dictInsert]
  | cons q rest ih =>
    obtain ⟨k', v'⟩ := q
    rw [keysOf_cons, List.nodup_cons] at h
    by_cases hk : k' = k
    · subst hk
      have e : dictInsert ((k', v') :: rest) k' v = (k', v) :: rest := by
        simp [dictInsert]
      rw [e, keysOf_cons, List.nodup_cons]
      exact h
    · have e : dictInsert ((k', v') :: rest) k v = (k', v') :: dictInsert rest k v := by
        simp [dictInsert, hk]
      have h1 : k' ∉ keysOf (dictInsert rest k v) := by
        rw [mem_keys_dictInsert]
        push_neg
        exact ⟨hk, h.1⟩
      rw [e, keysOf_cons, List.nodup_cons]
      exact ⟨h1, ih h.2⟩

/-! ### Invariants of the partition loop -/

theorem repliesFor_cons_none {c : RawReviewComment} (rest : List RawReviewComment) (X : Int)
    (h : c.in_reply_to_id = none) :
    repliesFor (c :: rest) X = repliesFor rest X := by
  simp [repliesFor, h]

theorem repliesFor_cons_some_eq {c : RawReviewComment} (rest : List RawReviewComment) (X : Int)
    (h : c.in_reply_to_id = some X) :
    repliesFor (c :: rest) X = mkReply c :: repliesFor rest X := by
  simp [repliesFor, h]

theorem repliesFor_cons_some_ne {c : RawReviewComment} (rest : List RawReviewComment)
    {p X : Int} (h : c.in_reply_to_id = some p) (hp : p ≠ X) :
    repliesFor (c :: rest) X = repliesFor rest X := by
  simp [repliesFor, h, hp]

theorem fold_replies (raw : List RawReviewComment) (st : AssemblyState) (X : Int) :
    lookupD (raw.foldl partitionStep st).replies X =
      lookupD st.replies X ++ repliesFor raw X := by
  induction raw generalizing st with
  | nil => simp [repliesFor]
  | cons c rest ih =>
    rw [List.foldl_cons, ih]
    cases hc : c.in_reply_to_id with
    | none =>
      simp [partitionStep, hc, repliesFor, lookupD_setdefaultEmpty]
    | some p =>
      by_cases hp : p = X
      · subst hp
        rw [repliesFor_cons_some_eq rest p hc]
        simp [partitionStep, hc, lookupD_repliesAdd]
      · have h2 : ¬X = p := fun hh => hp hh.symm
        rw [repliesFor_cons_some_ne rest hc hp]
        simp [partitionStep, hc, lookupD_repliesAdd, h2]

theorem fold_top_mem (raw : List RawReviewComment) (st : AssemblyState)
    (p : Int × RawReviewComment)
    (hp : p ∈ (raw.foldl partitionStep st).top_level) :
    p ∈ st.top_level ∨ (p.2 ∈ raw ∧ p.2.in_reply_to_id = none ∧ p.1 = p.2.id) := by
  induction raw generalizing st with
  | nil => exact Or.inl (by simpa using hp)
  | cons c rest ih =>
    rw [List.foldl_cons] at hp
    rcases ih (partitionStep st c) hp with h1 | h1
    · cases hc : c.in_reply_to_id with
      | none =>
        rcases mem_dictInsert st.top_level c.id c p
            (by simpa [partitionStep, hc] using h1) with h2 | h2
        · exact Or.inl h2
        · refine Or.inr ?_
          rw [h2]
          exact ⟨List.mem_cons_self _ _, hc, rfl⟩
      | some q =>
        exact Or.inl (by simpa [partitionStep, hc] using h1)
    · exact Or.inr ⟨List.mem_cons_of_mem _ h1.1, h1.2⟩

theorem fold_top_keys (raw : List RawReviewComment) (st : AssemblyState) (X : Int) :
    X ∈ keysOf (raw.foldl partitionStep st).top_level ↔
      X ∈ keysOf st.top_level ∨
        ∃ c, c ∈ raw ∧ c.in_reply_to_id = none ∧ c.id = X := by
  induction raw generalizing st with
  | nil => simp
  | cons c rest ih =>
    rw [List.foldl_cons, ih]
    cases hc : c.in_reply_to_id with
    | none =>
      simp only [partitionStep, hc, mem_keys_dictInsert, List.mem_cons]
      constructor
      · rintro ((h | h) | h)
        · exact Or.inr ⟨c, Or.inl rfl, hc, h.symm⟩
        · exact Or.inl h
        · obtain ⟨c', hc', h1, h2⟩ := h
          exact Or.inr ⟨c', Or.inr hc', h1, h2⟩
      · rintro (h | ⟨c', hc' | hc', h1, h2⟩)
        · exact Or.inl (Or.inr h)
        · subst hc'
          exact Or.inl (Or.inl h2.symm)
        · exact Or.inr ⟨c', hc', h1, h2⟩
    | some q =>
      simp only [partitionStep, hc, List.mem_cons]
      constructor
      · rintro (h | h)
        · exact Or.inl h
        · obtain ⟨c', hc', h1, h2⟩ := h
          exact Or.inr ⟨c', Or.inr hc', h1, h2⟩
      · rintro (h | ⟨c', hc' | hc', h1, h2⟩)
        · exact Or.inl h
        · subst hc'
          rw [hc] at h1
          exact absurd h1 (by simp)
        · exact Or.inr ⟨c', hc', h1, h2⟩

theorem fold_top_nodup (raw : List RawReviewComment) (st : AssemblyState)
    (h : (keysOf st.top_level).Nodup) :
    (keysOf (raw.foldl partitionStep st).top_level).Nodup := by
  induction raw generalizing st with
  | nil => simpa using h
  | cons c rest ih =>
    rw [List.foldl_cons]
    refine ih _ ?_
    cases hc : c.in_reply_to_id with
    | none => simpa [partitionStep, hc] using nodup_keys_dictInsert st.top_level c.id c h
    | some q => simpa [partitionStep, hc] using h

theorem partition_replies (raw : List RawReviewComment) (X : Int) :
    lookupD (partitionComments raw).replies X = repliesFor raw X := by
  have := fold_replies raw { top_level := [], replies := [] } X
  simpa [partitionComments] using this

theorem partition_top_mem (raw : List RawReviewComment) (p : Int × RawReviewComment)
    (hp : p ∈ (partitionComments raw).top_level) :
    p.2 ∈ raw ∧ p.2.in_reply_to_id = none ∧ p.1 = p.2.id := by
  rcases fold_top_mem raw { top_level := [], replies := [] } p hp with h | h
  · simp at h
  · exact h

theorem partition_top_keys (raw : List RawReviewComment) (X : Int) :
    X ∈ keysOf (partitionComments raw).top_level ↔
      ∃ c, c ∈ raw ∧ c.in_reply_to_id = none ∧ c.id = X := by
  have := fold_top_keys raw { top_level := [], replies := [] } X
  simpa [partitionComments] using this

theorem partition_top_nodup (raw : List RawReviewComment) :
    (keysOf (partitionComments raw).top_level).Nodup :=
  fold_top_nodup raw { top_level := [], replies := [] } (by simp)

theorem mem_repliesFor (raw : List RawReviewComment) (X : Int) (r : Reply) :
    r ∈ repliesFor raw X ↔
      ∃ c, c ∈ raw ∧ c.in_reply_to_id = some X ∧ r = mkReply c := by
  induction raw with
  | nil => simp [repliesFor]
  | cons c rest ih =>
    cases hc : c.in_reply_to_id with
    | none =>
      rw [repliesFor_cons_none rest X hc]
      simp only [ih, List.mem_cons]
      constructor
      · rintro ⟨c', hc', h1, h2⟩
        exact ⟨c', Or.inr hc', h1, h2⟩
      · rintro ⟨c', hc' | hc', h1, h2⟩
        · subst hc'
          rw [hc] at h1
          exact absurd h1 (by simp)
        · exact ⟨c', hc', h1, h2⟩
    | some p =>
      by_cases hp : p = X
      · subst hp
        rw [repliesFor_cons_some_eq rest p hc]
        simp only [List.mem_cons, ih]
        constructor
        · rintro (h | ⟨c', hc', h1, h2⟩)
          · exact ⟨c, Or.inl rfl, hc, h⟩
          · exact ⟨c', Or.inr hc', h1, h2⟩
        · rintro ⟨c', hc' | hc', h1, h2⟩
          · subst hc'
            exact Or.inl h2
          · exact Or.inr ⟨c', hc', h1, h2⟩
      · rw [repliesFor_cons_some_ne rest hc hp]
        simp only [ih]
        constructor
        · rintro ⟨c', hc', h1, h2⟩
          exact ⟨c', List.mem_cons_of_mem _ hc', h1, h2⟩
        · rintro ⟨c', hc', h1, h2⟩
          rcases List.mem_cons.mp hc' with h3 | h3
          · subst h3
            rw [hc] at h1
            exact absurd (Option.some.inj h1) hp
          · exact ⟨c', h3, h1, h2⟩

/-! ### Assembled-output lemmas -/

@[simp]
theorem build_id (rs : List Int) (rep : List (Int × List Reply)) (c : RawReviewComment) :
    (buildReviewComment rs rep c).id = c.id := rfl

@[simp]
theorem build_replies (rs : List Int) (rep : List (Int × List Reply)) (c : RawReviewComment) :
    (buildReviewComment rs rep c).replies = lookupD rep c.id := rfl

@[simp]
theorem build_resolved (rs : List Int) (rep : List (Int × List Reply)) (c : RawReviewComment) :
    (buildReviewComment rs rep c).resolved = decide (c.id ∈ rs) := rfl

@[simp]
theorem build_outdated (rs : List Int) (rep : List (Int × List Reply)) (c : RawReviewComment) :
    (buildReviewComment rs rep c).outdated = decide (c.position = none) := rfl

@[simp]
theorem build_line (rs : List Int) (rep : List (Int × List Reply)) (c : RawReviewComment) :
    (buildReviewComment rs rep c).line = pyOr c.line c.original_line := rfl

theorem mem_assemble {raw : List RawReviewComment} {rs : List Int} {rc : ReviewComment}
    (hrc : rc ∈ assembleReviewComments raw rs) :
    ∃ p ∈ (partitionComments raw).top_level,
      rc = buildReviewComment rs (partitionComments raw).replies p.2 := by
  simp only [assembleReviewComments, List.mem_map] at hrc
  obtain ⟨p, hp, h⟩ := hrc
  exact ⟨p, hp, h.symm⟩

theorem assemble_mem {raw : List RawReviewComment} {rs : List Int}
    {p : Int × RawReviewComment} (hp : p ∈ (partitionComments raw).top_level) :
    buildReviewComment rs (partitionComments raw).replies p.2 ∈
      assembleReviewComments raw rs := by
  simp only [assembleReviewComments, List.mem_map]
  exact ⟨p, hp, rfl⟩

/-- Claim C1: every record with `in_reply_to_id = X` contributes exactly
one `Reply {id, author, body}` to the replies list of the output
top-level comment whose id is `X` and nowhere else, replies keep input
(API) order, and no record with null `in_reply_to_id` appears inside
any replies list.  Stated as: each output comment's `replies` is
exactly the input-order projection of the records replying to its id
(`repliesFor`), and every reply entry of a comment originates from a
record whose parent is that comment's id. -/
theorem c1_reply_threading (raw : List RawReviewComment) (rs : List Int) :
    ∀ rc ∈ assembleReviewComments raw rs,
      rc.replies = repliesFor raw rc.id ∧
      ∀ r ∈ rc.replies, ∃ c ∈ raw, c.in_reply_to_id = some rc.id ∧ r = mkReply c := by
  intro rc hrc
  obtain ⟨p, hp, rfl⟩ := mem_assemble hrc
  have hrep : (buildReviewComment rs (partitionComments raw).replies p.2).replies
      = repliesFor raw p.2.id := by
    rw [build_replies, partition_replies]
  refine ⟨by simpa using hrep, ?_⟩
  intro r hr
  rw [hrep] at hr
  obtain ⟨c, hcmem, hcp, hrc'⟩ := (mem_repliesFor raw _ r).mp hr
  exact ⟨c, hcmem, by simpa using hcp, hrc'⟩

/-- Claim C3: an output comment's `resolved` flag is true iff its id is
a member of the resolved-id set handed to the assembler. -/
theorem c3_resolved_flag (raw : List RawReviewComment) (rs : List Int) :
    ∀ rc ∈ assembleReviewComments raw rs, (rc.resolved = true ↔ rc.id ∈ rs) := by
  intro rc hrc
  obtain ⟨p, hp, rfl⟩ := mem_assemble hrc
  simp

/-- Claim C4: an output comment's `outdated` flag is true iff the source
record's `position` is null, and the `outdated` flags do not depend on
the resolved-id set. -/
theorem c4_outdated_iff (raw : List RawReviewComment) (rs rs' : List Int) :
    (∀ rc ∈ assembleReviewComments raw rs,
        ∃ c ∈ raw, c.in_reply_to_id = none ∧ c.id = rc.id ∧
          (rc.outdated = true ↔ c.position = none)) ∧
    (assembleReviewComments raw rs).map ReviewComment.outdated =
      (assembleReviewComments raw rs').map ReviewComment.outdated := by
  constructor
  · intro rc hrc
    obtain ⟨p, hp, rfl⟩ := mem_assemble hrc
    obtain ⟨hmem, hnull, hid⟩ := partition_top_mem raw p hp
    exact ⟨p.2, hmem, hnull, by simp, by simp⟩
  · simp only [assembleReviewComments, List.map_map]
    rfl

/-- Claim C5 (amended): the output `line` follows Python truthiness,
not mere presence: a present and nonzero `line` is kept, while a null
or zero `line` falls back to `original_line`. -/
theorem c5_line_fallback (raw : List RawReviewComment) (rs : List Int) :
    ∀ rc ∈ assembleReviewComments raw rs,
      ∃ c ∈ raw, c.in_reply_to_id = none ∧ c.id = rc.id ∧
        (∀ m : Int, c.line = some m → m ≠ 0 → rc.line = some m) ∧
        ((c.line = none ∨ c.line = some 0) → rc.line = c.original_line) := by
  intro rc hrc
  obtain ⟨p, hp, rfl⟩ := mem_assemble hrc
  obtain ⟨hmem, hnull, hid⟩ := partition_top_mem raw p hp
  refine ⟨p.2, hmem, hnull, by simp, ?_, ?_⟩
  · intro m hm hm0
    simp [pyOr, hm, hm0]
  · rintro (h | h) <;> simp [pyOr, h]

/-- Claim C6: a reply whose parent id matches no top-level record is
dropped: no output comment has the orphan parent id, and every reply
entry that does appear originates from a record replying to its owning
comment's id.  (All embedded functions are total, so assembly cannot
fail.) -/
theorem c6_orphan_reply_dropped (raw : List RawReviewComment) (rs : List Int) (X : Int)
    (h : ∀ c ∈ raw, c.in_reply_to_id = none → c.id ≠ X) :
    ∀ rc ∈ assembleReviewComments raw rs,
      rc.id ≠ X ∧
      ∀ r ∈ rc.replies, ∃ c ∈ raw, c.in_reply_to_id = some rc.id ∧ r = mkReply c := by
  intro rc hrc
  refine ⟨?_, ((c1_reply_threading raw rs) rc hrc).2⟩
  obtain ⟨p, hp, rfl⟩ := mem_assemble hrc
  obtain ⟨hmem, hnull, hid⟩ := partition_top_mem raw p hp
  simpa using h p.2 hmem hnull

/-- Claim C7 (amended): output ids are unique (unconditionally, even
for duplicate input ids), a zero-reply top-level comment still appears
with an empty replies list (unconditionally), and — provided no input
record lists its own id as its `in_reply_to_id` — no replies list
contains its owning comment's own id. -/
theorem c7_output_invariants (raw : List RawReviewComment) (rs : List Int) :
    ((assembleReviewComments raw rs).map ReviewComment.id).Nodup ∧
    (∀ c ∈ raw, c.in_reply_to_id = none →
      ∃ rc ∈ assembleReviewComments raw rs,
        rc.id = c.id ∧ rc.replies = repliesFor raw c.id) ∧
    ((∀ c ∈ raw, c.in_reply_to_id ≠ some c.id) →
      ∀ rc ∈ assembleReviewComments raw rs, ∀ r ∈ rc.replies, r.id ≠ rc.id) := by
  refine ⟨?_, ?_, ?_⟩
  · have e1 : (assembleReviewComments raw rs).map ReviewComment.id
        = (partitionComments raw).top_level.map (fun p => p.2.id) := by
      simp only [assembleReviewComments, List.map_map]
      rfl
    have e2 : (partitionComments raw).top_level.map (fun p => p.2.id)
        = keysOf (partitionComments raw).top_level := by
      simp only [keysOf]
      refine List.map_congr_left ?_
      intro p hp
      exact ((partition_top_mem raw p hp).2.2).symm
    rw [e1, e2]
    exact partition_top_nodup raw
  · intro c hc hnull
    have hkey : c.id ∈ keysOf (partitionComments raw).top_level :=
      (partition_top_keys raw c.id).mpr ⟨c, hc, hnull, rfl⟩
    have hex : ∃ v, (c.id, v) ∈ (partitionComments raw).top_level := by
      simpa [keysOf] using hkey
    obtain ⟨v, hp⟩ := hex
    have hmem := partition_top_mem raw (c.id, v) hp
    refine ⟨buildReviewComment rs (partitionComments raw).replies v,
      assemble_mem hp, ?_, ?_⟩
    · rw [build_id]
      exact hmem.2.2.symm
    · rw [build_replies, partition_replies, ← hmem.2.2]
  · intro h rc hrc r hr
    obtain ⟨hrep, _⟩ := c1_reply_threading raw rs rc hrc
    rw [hrep] at hr
    obtain ⟨c, hcmem, hcp, rfl⟩ := (mem_repliesFor raw _ r).mp hr
    intro hid
    apply h c hcmem
    rw [hcp]
    have : c.id = rc.id := hid
    rw [this]

/-- A top-level record with id 5 followed by a record that replies to
id 5 while itself having id 5: the pathological input refuting C7 as
stated. -/
def c7Top : RawReviewComment :=
  { id := 5, user_login := "a", path := "p", line := none, original_line := none,
    body := "t", diff_hunk := none, position := none, in_reply_to_id := none }

/-- The self-id reply record of the C7 counterexample. -/
def c7SelfReply : RawReviewComment :=
  { id := 5, user_login := "b", path := "p", line := none, original_line := none,
    body := "r", diff_hunk := none, position := none, in_reply_to_id := some 5 }

/-- The single output comment produced from `[c7Top, c7SelfReply]`. -/
def c7Out : ReviewComment :=
  { id := 5, author := "a", path := "p", line := none, body := "t", diff_hunk := "",
    outdated := true, resolved := false,
    replies := [{ id := 5, author := "b", body := "r" }] }

/-- Claim C7 (counterexample): with a reply record whose id equals its
parent's id, the owning comment's replies list does contain the
comment's own id, so the invariant as stated fails. -/
theorem c7_counterexample :
    ¬ (∀ (raw : List RawReviewComment) (rs : List Int),
        ∀ rc ∈ assembleReviewComments raw rs, ∀ r ∈ rc.replies, r.id ≠ rc.id) := by
  intro h
  exact h [c7Top, c7SelfReply] [] c7Out (by decide)
    { id := 5, author := "b", body := "r" } (by decide) (by decide)

/-! ### Thread resolution resolver (`fetch_resolved_thread_ids`) -/

/-- One node of `comments(first: 1) { nodes { databaseId } }`. -/
structure ThreadComment where
  databaseId : Int
deriving Repr, DecidableEq

/-- One node of `reviewThreads.nodes`: its `isResolved` flag and its
(first-page, at most one in practice) comment nodes. -/
structure ReviewThread where
  isResolved : Bool
  comments : List ThreadComment
deriving Repr, DecidableEq

/-- One GraphQL `reviewThreads` page: the thread nodes and its
`pageInfo.hasNextPage` flag (the cursor itself is represented by the
position in the page sequence). -/
structure ThreadPage where
  nodes : List ReviewThread
  hasNextPage : Bool
deriving Repr, DecidableEq

/-- The body of the `for thread in threads["nodes"]` loop: a resolved
thread with at least one comment yields its first comment's
`databaseId`. -/
def threadResolvedId (t : ReviewThread) : Option Int :=
  match t.isResolved, t.comments with
  | true, c :: _ => some c.databaseId
  | _, _ => none

/-- The `while True` pagination loop of `fetch_resolved_thread_ids`:
process the current page, stop when `hasNextPage` is false, otherwise
continue with the next page the transport returns.  The Python `set`
is modelled as a list observed only through membership. -/
def fetch_resolved_thread_ids : List ThreadPage → List Int
  | [] => []
  | p :: rest =>
    p.nodes.filterMap threadResolvedId ++
      (if p.hasNextPage then fetch_resolved_thread_ids rest else [])

/-- A page sequence as the cursor loop consumes it: at least one page,
every page but the last announces a next page, and the last does not. -/
def chainWF : List ThreadPage → Bool
  | [] => false
  | [p] => !p.hasNextPage
  | p :: rest => p.hasNextPage && chainWF rest

theorem threadResolvedId_eq_some (t : ReviewThread) (x : Int) :
    threadResolvedId t = some x ↔
      t.isResolved = true ∧ ∃ c cs, t.comments = c :: cs ∧ c.databaseId = x := by
  cases hres : t.isResolved with
  | false =>
    cases hcs : t.comments <;> simp [threadResolvedId, hres, hcs]
  | true =>
    cases hcs : t.comments with
    | nil => simp [threadResolvedId, hres, hcs]
    | cons c cs =>
      simp only [threadResolvedId, hres, hcs, Option.some.injEq, true_and]
      constructor
      · intro h
        exact ⟨c, cs, rfl, h⟩
      · rintro ⟨c', cs', h1, h2⟩
        injection h1 with h3 h4
        rw [h3]
        exact h2

/-- Claim C2: over a well-formed page chain, the resolver returns
exactly the first-comment identifiers of resolved threads with at
least one comment, across all pages; zero-comment threads contribute
nothing (and, all functions being total, cause no failure). -/
theorem c2_resolved_thread_ids (pages : List ThreadPage) (h : chainWF pages = true) (x : Int) :
    x ∈ fetch_resolved_thread_ids pages ↔
      ∃ p ∈ pages, ∃ t ∈ p.nodes,
        t.isResolved = true ∧ ∃ c cs, t.comments = c :: cs ∧ c.databaseId = x := by
  induction pages with
  | nil => simp [chainWF] at h
  | cons p rest ih =>
    cases rest with
    | nil =>
      have hn : p.hasNextPage = false := by
        simpa [chainWF] using h
      simp only [fetch_resolved_thread_ids, hn, if_neg Bool.false_ne_true,
        List.append_nil, List.mem_filterMap, List.mem_singleton, Bool.false_eq_true,
        ite_false]
      constructor
      · rintro ⟨t, ht, hres⟩
        exact ⟨p, by simp, t, ht, (threadResolvedId_eq_some t x).mp hres⟩
      · rintro ⟨p', hp', t, ht, hres⟩
        have : p' = p := by simpa using hp'
        subst this
        exact ⟨t, ht, (threadResolvedId_eq_some t x).mpr hres⟩
    | cons q rest' =>
      have hn : p.hasNextPage = true := by
        have := h
        simp only [chainWF, Bool.and_eq_true] at this
        exact this.1
      have hwf : chainWF (q :: rest') = true := by
        have := h
        simp only [chainWF, Bool.and_eq_true] at this
        exact this.2
      rw [show fetch_resolved_thread_ids (p :: q :: rest')
          = p.nodes.filterMap threadResolvedId ++ fetch_resolved_thread_ids (q :: rest') from by
        simp [fetch_resolved_thread_ids, hn]]
      rw [List.mem_append, List.mem_filterMap, ih hwf]
      constructor
      · rintro (⟨t, ht, hres⟩ | ⟨p', hp', t, ht, hres⟩)
        · exact ⟨p, by simp, t, ht, (threadResolvedId_eq_some t x).mp hres⟩
        · exact ⟨p', List.mem_cons_of_mem _ hp', t, ht, hres⟩
      · rintro ⟨p', hp', t, ht, hres⟩
        rcases List.mem_cons.mp hp' with h1 | h1
        · subst h1
          exact Or.inl ⟨t, ht, (threadResolvedId_eq_some t x).mpr hres⟩
        · exact Or.inr ⟨p', h1, t, ht, hres⟩

/-! ### Transport and the aggregate builder (`fetch_pr_comments`) -/

/-- The `--jq`-projected PR metadata `{title, url, body}`. -/
structure PRMeta where
  title : String
  url : String
  body : String
deriving Repr, DecidableEq

/-- A raw issue (timeline) comment record; `user_login` models
`c["user"]["login"]`. -/
structure RawIssueComment where
  id : Int
  user_login : String
  body : String
deriving Repr, DecidableEq

/-- A projected issue comment `{id, author, body}`. -/
structure IssueComment where
  id : Int
  author : String
  body : String
deriving Repr, DecidableEq

/-- The final output document `{pr, review_comments, issue_comments}`. -/
structure PRDocument where
  pr : PRMeta
  review_comments : List ReviewComment
  issue_comments : List IssueComment
deriving Repr, DecidableEq

/-- The `gh` transport as the script observes it in one invocation:
each fetch either returns parsed JSON (already shaped) or fails
(`subprocess.run(check=True)` raising, or `json.loads` failing).  The
GraphQL thread walk is one logical fetch whose pages are consumed by
`fetch_resolved_thread_ids`; a failure of any of its page requests is
a failure of the whole walk. -/
structure Transport where
  prMeta : Except String PRMeta
  threadPages : Except String (List ThreadPage)
  reviewRecords : Except String (List RawReviewComment)
  issueRecords : Except String (List RawIssueComment)

/-- Whether a transport call succeeded. -/
def exOk {α : Type} : Except String α → Bool
  | .ok _ => true
  | .error _ => false

/-- The issue-comment list comprehension `{id, author, body}`. -/
def projectIssueComment (c : RawIssueComment) : IssueComment :=
  { id := c.id, author := c.user_login, body := c.body }

/-- The body of `fetch_pr_comments`: PR metadata fetch, resolved-thread
walk, inline-comment fetch and partition/assembly, issue-comment fetch
and projection, in source order; any raised error propagates (there is
no try/except in the script). -/
def fetch_pr_comments (t : Transport) : Except String PRDocument := do
  let prData ← t.prMeta
  let pages ← t.threadPages
  let resolvedIds := fetch_resolved_thread_ids pages
  let rawReview ← t.reviewRecords
  let reviewComments := assembleReviewComments rawReview resolvedIds
  let rawIssue ← t.issueRecords
  let issueComments := rawIssue.map projectIssueComment
  pure { pr := prData, review_comments := reviewComments, issue_comments := issueComments }

/-- Claim C8: the aggregation succeeds exactly when all four transport
calls succeed, and when it fails the surfaced error is one of the
transport errors — no error is swallowed and no partial document is
produced. -/
theorem c8_abort_on_transport_failure (t : Transport) :
    (exOk (fetch_pr_comments t) =
      (exOk t.prMeta && exOk t.threadPages && exOk t.reviewRecords && exOk t.issueRecords)) ∧
    (∀ e, fetch_pr_comments t = .error e →
      t.prMeta = .error e ∨ t.threadPages = .error e ∨
        t.reviewRecords = .error e ∨ t.issueRecords = .error e) := by
  obtain ⟨pm, tp, rr, ir⟩ := t
  cases pm <;> cases tp <;> cases rr <;> cases ir <;>
    simp [fetch_pr_comments, exOk, Except.bind, Bind.bind, pure, Except.pure]

/-- Claim C10: the aggregation is deterministic — identical transport
responses yield an identical document — and the assembled review
comments depend on the resolved-id collection only through membership
(so the iteration order of the Python `set` cannot affect the
output). -/
theorem c10_deterministic (t₁ t₂ : Transport) (raw : List RawReviewComment)
    (r₁ r₂ : List Int) :
    (t₁.prMeta = t₂.prMeta → t₁.threadPages = t₂.threadPages →
      t₁.reviewRecords = t₂.reviewRecords → t₁.issueRecords = t₂.issueRecords →
      fetch_pr_comments t₁ = fetch_pr_comments t₂) ∧
    ((∀ x : Int, x ∈ r₁ ↔ x ∈ r₂) →
      assembleReviewComments raw r₁ = assembleReviewComments raw r₂) := by
  constructor
  · intro h1 h2 h3 h4
    obtain ⟨pm, tp, rr, ir⟩ := t₁
    obtain ⟨pm', tp', rr', ir'⟩ := t₂
    simp only at h1 h2 h3 h4
    subst h1 h2 h3 h4
    rfl
  · intro h
    simp only [assembleReviewComments]
    refine List.map_congr_left ?_
    intro p hp
    show buildReviewComment r₁ (partitionComments raw).replies p.2
        = buildReviewComment r₂ (partitionComments raw).replies p.2
    unfold buildReviewComment
    rw [decide_eq_decide.mpr (h p.2.id)]

/-! ### PR reference parsing (`parse_pr_ref` / `main`) -/

/-- The regex's fixed prefix `https://github\.com/`. -/
def ghHead : List Char := "https://github.com/".toList

/-- The literal segment `/pull/` between the repo name and the PR
number in the regex. -/
def pullSeg : List Char := '/' :: 'p' :: 'u' :: 'l' :: 'l' :: '/' :: []

/-- Match a literal prefix, returning the remainder on success. -/
def stripPrefixChars : List Char → List Char → Option (List Char)
  | [], cs => some cs
  | _ :: _, [] => none
  | p :: ps, c :: cs => if p = c then stripPrefixChars ps cs else none

/-- The maximal run matched by `[^/]+` (possibly empty here; emptiness
is checked by the caller) and the remainder, which is empty or starts
with a slash. -/
def splitNonSlash : List Char → List Char × List Char
  | [] => ([], [])
  | c :: cs =>
    if c = '/' then ([], c :: cs)
    else (c :: (splitNonSlash cs).1, (splitNonSlash cs).2)

/-- The codepoint ranges Python's `\d` matches in a `str` pattern:
exactly the Unicode decimal digits (category Nd), 660 codepoints in 62
contiguous ranges (CPython 3.11's Unicode tables).  ASCII `0`–`9` is
the first range; e.g. U+0664 ARABIC-INDIC DIGIT FOUR (1636) matches,
while U+00B2 SUPERSCRIPT TWO (178, category No) does not. -/
def pyDigitRanges : List (Nat × Nat) :=
  [(48, 57), (1632, 1641), (1776, 1785), (1984, 1993), (2406, 2415), (2534, 2543),
   (2662, 2671), (2790, 2799), (2918, 2927), (3046, 3055), (3174, 3183), (3302, 3311),
   (3430, 3439), (3558, 3567), (3664, 3673), (3792, 3801), (3872, 3881), (4160, 4169),
   (4240, 4249), (6112, 6121), (6160, 6169), (6470, 6479), (6608, 6617), (6784, 6793),
   (6800, 6809), (6992, 7001), (7088, 7097), (7232, 7241), (7248, 7257), (42528, 42537),
   (43216, 43225), (43264, 43273), (43472, 43481), (43504, 43513), (43600, 43609),
   (44016, 44025), (65296, 65305), (66720, 66729), (68912, 68921), (69734, 69743),
   (69872, 69881), (69942, 69951), (70096, 70105), (70384, 70393), (70736, 70745),
   (70864, 70873), (71248, 71257), (71360, 71369), (71472, 71481), (71904, 71913),
   (72016, 72025), (72784, 72793), (73040, 73049), (73120, 73129), (92768, 92777),
   (92864, 92873), (93008, 93017), (120782, 120831), (123200, 123209), (123632, 123641),
   (125264, 125273), (130032, 130041)]

/-- Python's `\d` test on a single character: membership in the
Unicode decimal-digit (Nd) ranges. -/
def pyIsDigit (c : Char) : Bool :=
  pyDigitRanges.any (fun r => decide (r.1 ≤ c.toNat) && decide (c.toNat ≤ r.2))

/-- The maximal run matched by `\d+` (possibly empty; emptiness is
checked by the caller) and the remainder.  `\d` is Python's Unicode
decimal-digit class `pyIsDigit`, not just ASCII `0`–`9`. -/
def takeDigits : List Char → List Char × List Char
  | [] => ([], [])
  | c :: cs =>
    if pyIsDigit c then (c :: (takeDigits cs).1, (takeDigits cs).2)
    else ([], c :: cs)

theorem stripPrefixChars_append (pre cs : List Char) :
    stripPrefixChars pre (pre ++ cs) = some cs := by
  induction pre with
  | nil => rfl
  | cons p ps ih => simp [stripPrefixChars, ih]

theorem stripPrefixChars_eq_some (pre : List Char) :
    ∀ cs r : List Char, stripPrefixChars pre cs = some r → cs = pre ++ r := by
  induction pre with
  | nil =>
    intro cs r h
    simp only [stripPrefixChars, Option.some.injEq] at h
    simp [h]
  | cons p ps ih =>
    intro cs r h
    cases cs with
    | nil => simp [stripPrefixChars] at h
    | cons c cs' =>
      by_cases hpc : p = c
      · subst hpc
        simp only [stripPrefixChars, if_pos rfl] at h
        simp [ih cs' r h]
      · simp [stripPrefixChars, hpc] at h

theorem splitNonSlash_append (a b : List Char) (ha : ∀ c ∈ a, c ≠ '/') :
    splitNonSlash (a ++ '/' :: b) = (a, '/' :: b) := by
  induction a with
  | nil => simp [splitNonSlash]
  | cons c a' ih =>
    have hc : c ≠ '/' := ha c (List.mem_cons_self c a')
    simp [splitNonSlash, hc, ih (fun x hx => ha x (List.mem_cons_of_mem _ hx))]

theorem splitNonSlash_spec (cs : List Char) :
    cs = (splitNonSlash cs).1 ++ (splitNonSlash cs).2 ∧
    ∀ c ∈ (splitNonSlash cs).1, c ≠ '/' := by
  induction cs with
  | nil => simp [splitNonSlash]
  | cons c cs' ih =>
    by_cases hc : c = '/'
    · simp [splitNonSlash, hc]
    · simp only [splitNonSlash, if_neg hc]
      refine ⟨?_, ?_⟩
      · rw [List.cons_append]
        exact congrArg (List.cons c) ih.1
      · intro x hx
        rcases List.mem_cons.mp hx with h1 | h1
        · subst h1
          exact hc
        · exact ih.2 x h1

theorem takeDigits_spec (cs : List Char) :
    cs = (takeDigits cs).1 ++ (takeDigits cs).2 ∧
    (∀ c ∈ (takeDigits cs).1, pyIsDigit c = true) ∧
    (∀ c, (takeDigits cs).2.head? = some c → pyIsDigit c = false) := by
  induction cs with
  | nil => simp [takeDigits]
  | cons c cs' ih =>
    by_cases hc : pyIsDigit c
    · simp only [takeDigits, if_pos hc]
      refine ⟨?_, ?_, ih.2.2⟩
      · rw [List.cons_append]
        exact congrArg (List.cons c) ih.1
      · intro x hx
        rcases List.mem_cons.mp hx with h1 | h1
        · subst h1
          exact hc
        · exact ih.2.1 x h1
    · simp only [takeDigits, if_neg hc]
      refine ⟨rfl, by simp, ?_⟩
      intro x hx
      simp only [List.head?_cons, Option.some.injEq] at hx
      subst hx
      simpa using hc

theorem takeDigits_append (d rest : List Char)
    (hd : ∀ c ∈ d, pyIsDigit c = true)
    (hrest : ∀ c, rest.head? = some c → pyIsDigit c = false) :
    takeDigits (d ++ rest) = (d, rest) := by
  induction d with
  | nil =>
    cases rest with
    | nil => rfl
    | cons c cs =>
      have h1 : pyIsDigit c = false := hrest c rfl
      simp [takeDigits, h1]
  | cons c d' ih =>
    have hc : pyIsDigit c = true := hd c (List.mem_cons_self c d')
    simp [takeDigits, hc, ih (fun x hx => hd x (List.mem_cons_of_mem _ hx))]

/-- The single-URL branch of `parse_pr_ref`:
`re.match(r"https://github\.com/([^/]+/[^/]+)/pull/(\d+)", url)`,
returning `(m.group(1), m.group(2))` on success.  `re.match` anchors
at the start only, so arbitrary text may follow the digit run. -/
def parsePRUrl (url : String) : Option (String × String) :=
  match stripPrefixChars ghHead url.toList with
  | none => none
  | some rest0 =>
    match splitNonSlash rest0 with
    | (owner, r1) =>
      if owner = [] then none
      else
        match r1 with
        | c :: r2 =>
          if c = '/' then
            match splitNonSlash r2 with
            | (repo, r3) =>
              if repo = [] then none
              else
                match stripPrefixChars pullSeg r3 with
                | none => none
                | some r4 =>
                  match takeDigits r4 with
                  | (digits, _) =>
                    if digits = [] then none
                    else some (String.mk (owner ++ '/' :: repo), String.mk digits)
          else none
        | [] => none

/-- `parse_pr_ref(args)`: one argument is parsed as a URL (usage error,
modelled `none`, when the regex does not match), two arguments are
passed through unvalidated, any other count is a usage error. -/
def parse_pr_ref (args : List String) : Option (String × String) :=
  match args with
  | [url] => parsePRUrl url
  | [repo, num] => some (repo, num)
  | _ => none

/-- What `main` does after argument handling: either print usage and
exit 1 before any API call, or proceed to `fetch_pr_comments` with the
parsed pair. -/
inductive MainOutcome where
  | usageExit : MainOutcome
  | apiRun : String → String → MainOutcome
deriving Repr, DecidableEq

/-- The control flow of `main`: empty argv or a parse failure exits
with a usage error and issues no API calls; otherwise the transport is
invoked with the parsed `(repo, number)`. -/
def main_dispatch (args : List String) : MainOutcome :=
  match args with
  | [] => MainOutcome.usageExit
  | _ =>
    match parse_pr_ref args with
    | none => MainOutcome.usageExit
    | some (r, n) => MainOutcome.apiRun r n

/-- Modelled from the spec: a URL of the full form
`https://<host>/<owner>/<repo>/pull/<number>` (nonempty slash-free
host, owner and repo; nonempty all-digit number; nothing after it).
This is the claim-side notion of a well-formed PR URL, used to compare
the spec's wording against the implemented regex. -/
def specUrlForm (url : String) : Bool :=
  match stripPrefixChars ("https://".toList) url.toList with
  | none => false
  | some r0 =>
    match splitNonSlash r0 with
    | (host, r1) =>
      if host = [] then false
      else
        match r1 with
        | c :: r2 =>
          if c = '/' then
            match splitNonSlash r2 with
            | (owner, r3) =>
              if owner = [] then false
              else
                match r3 with
                | c' :: r4 =>
                  if c' = '/' then
                    match splitNonSlash r4 with
                    | (repo, r5) =>
                      if repo = [] then false
                      else
                        match stripPrefixChars pullSeg r5 with
                        | none => false
                        | some r6 =>
                          match takeDigits r6 with
                          | (digits, rest) =>
                            decide (digits ≠ []) && decide (rest = [])
                  else false
                | [] => false
          else false
        | [] => false

/-- The decomposition a URL admits exactly when the implemented regex
matches it: the fixed `https://github.com/` head, a nonempty
slash-free owner and repo, the literal `/pull/`, a nonempty maximal
run of Unicode decimal digits (`pyIsDigit`, Python's `\d`), and an
arbitrary remainder. -/
def urlDecomp (url : String) (r n : String) : Prop :=
  ∃ owner repo digits rest : List Char,
    owner ≠ [] ∧ repo ≠ [] ∧ digits ≠ [] ∧
    (∀ c ∈ owner, c ≠ '/') ∧ (∀ c ∈ repo, c ≠ '/') ∧
    (∀ c ∈ digits, pyIsDigit c = true) ∧
    (∀ c, rest.head? = some c → pyIsDigit c = false) ∧
    url.toList = ghHead ++ (owner ++ '/' :: (repo ++ pullSeg ++ (digits ++ rest))) ∧
    r = String.mk (owner ++ '/' :: repo) ∧ n = String.mk digits

theorem parsePRUrl_of_decomp (url : String) (r n : String) (h : urlDecomp url r n) :
    parsePRUrl url = some (r, n) := by
  obtain ⟨owner, repo, digits, rest, ho, hr, hd, hos, hrs, hdig, hrest, hurl, rfl, rfl⟩ := h
  have e4 : repo ++ pullSeg ++ (digits ++ rest)
      = repo ++ '/' :: ('p' :: 'u' :: 'l' :: 'l' :: '/' :: (digits ++ rest)) := by
    rw [List.append_assoc]
    rfl
  have e6 : '/' :: ('p' :: 'u' :: 'l' :: 'l' :: '/' :: (digits ++ rest))
      = pullSeg ++ (digits ++ rest) := rfl
  unfold parsePRUrl
  rw [hurl, stripPrefixChars_append]
  simp only []
  rw [splitNonSlash_append owner _ hos]
  simp only []
  rw [if_neg ho]
  rw [if_pos True.intro]
  rw [e4, splitNonSlash_append repo _ hrs]
  simp only []
  rw [if_neg hr, e6, stripPrefixChars_append]
  simp only []
  rw [takeDigits_append digits rest hdig hrest]
  simp only []
  rw [if_neg hd]

theorem decomp_of_parsePRUrl (url : String) (r n : String)
    (h : parsePRUrl url = some (r, n)) : urlDecomp url r n := by
  unfold parsePRUrl at h
  cases h0 : stripPrefixChars ghHead url.toList with
  | none =>
    rw [h0] at h
    simp only [] at h
    exact absurd h (by simp)
  | some rest0 =>
    rw [h0] at h
    simp only [] at h
    rcases h1 : splitNonSlash rest0 with ⟨owner, r1⟩
    rw [h1] at h
    simp only [] at h
    by_cases ho : owner = []
    · rw [if_pos ho] at h
      exact absurd h (by simp)
    rw [if_neg ho] at h
    cases r1 with
    | nil => exact absurd h (by simp)
    | cons c r2 =>
      simp only [] at h
      by_cases hc : c = '/'
      swap
      · rw [if_neg hc] at h
        exact absurd h (by simp)
      rw [if_pos hc] at h
      subst hc
      rcases h2 : splitNonSlash r2 with ⟨repo, r3⟩
      rw [h2] at h
      simp only [] at h
      by_cases hr : repo = []
      · rw [if_pos hr] at h
        exact absurd h (by simp)
      rw [if_neg hr] at h
      cases h3 : stripPrefixChars pullSeg r3 with
      | none =>
        rw [h3] at h
        simp only [] at h
        exact absurd h (by simp)
      | some r4 =>
        rw [h3] at h
        simp only [] at h
        rcases h4 : takeDigits r4 with ⟨digits, rest⟩
        rw [h4] at h
        simp only [] at h
        by_cases hd : digits = []
        · rw [if_pos hd] at h
          exact absurd h (by simp)
        rw [if_neg hd] at h
        have hinj := Option.some.inj h
        have hrn : String.mk (owner ++ '/' :: repo) = r ∧ String.mk digits = n := by
          constructor
          · exact congrArg Prod.fst hinj
          · exact congrArg Prod.snd hinj
        have hsp1 := splitNonSlash_spec rest0
        rw [h1] at hsp1
        have hsp2 := splitNonSlash_spec r2
        rw [h2] at hsp2
        have htd := takeDigits_spec r4
        rw [h4] at htd
        refine ⟨owner, repo, digits, rest, ho, hr, hd, hsp1.2, hsp2.2, htd.2.1, htd.2.2,
          ?_, hrn.1.symm, hrn.2.symm⟩
        have hu : url.toList = ghHead ++ rest0 := stripPrefixChars_eq_some ghHead _ _ h0
        have hr3 : r3 = pullSeg ++ r4 := stripPrefixChars_eq_some pullSeg _ _ h3
        rw [hu, hsp1.1, hsp2.1, hr3, htd.1]
        simp [List.append_assoc]

/-- Claim C9 (amended): with a single URL argument, the program
proceeds to the API phase iff the argument begins with
`https://github.com/<owner>/<repo>/pull/<digits>` (owner and repo
nonempty and slash-free, digits a nonempty maximal run of Unicode
decimal digits — Python's `\d`, `pyIsDigit`), in which case it
extracts `owner/repo` and the digit run; any trailing text after the
digits is ignored and hosts other than `github.com` are rejected.  A
non-matching argument yields a usage error, a non-zero exit, and no
API calls. -/
theorem c9_parse_pr_ref (url r n : String) :
    (parse_pr_ref [url] = some (r, n) ↔ urlDecomp url r n) ∧
    (parsePRUrl url = none → main_dispatch [url] = MainOutcome.usageExit) ∧
    (parsePRUrl url = some (r, n) → main_dispatch [url] = MainOutcome.apiRun r n) := by
  refine ⟨⟨?_, ?_⟩, ?_, ?_⟩
  · intro h
    exact decomp_of_parsePRUrl url r n h
  · intro h
    exact parsePRUrl_of_decomp url r n h
  · intro h
    simp [main_dispatch, parse_pr_ref, h]
  · intro h
    simp [main_dispatch, parse_pr_ref, h]

/-- Claim C9 (counterexample): `https://github.com/a/b/pull/42x` is not
of the spec's form `https://<host>/<owner>/<repo>/pull/<number>` —
text follows the number — yet the program reports no usage error and
proceeds to issue API calls for repo `a/b`, PR number `42`. -/
theorem c9_counterexample :
    specUrlForm "https://github.com/a/b/pull/42x" = false ∧
    main_dispatch ["https://github.com/a/b/pull/42x"] = MainOutcome.apiRun "a/b" "42" := by
  constructor
  · decide
  · decide

/-- A record with `line: 0` (present, non-null) and
`original_line: 42`: the input refuting C5 as stated. -/
def c5Rec : RawReviewComment :=
  { id := 11, user_login := "zed", path := "z.py", line := some 0,
    original_line := some 42, body := "zb", diff_hunk := none,
    position := some 1, in_reply_to_id := none }

/-- The single output comment produced from `[c5Rec]`: its `line` is
42, not 0. -/
def c5Out : ReviewComment :=
  { id := 11, author := "zed", path := "z.py", line := some 42, body := "zb",
    diff_hunk := "", outdated := false, resolved := false, replies := [] }

/-- Claim C5 (counterexample): the script computes
`c.get("line") or c.get("original_line")` with Python truthiness, so a
record whose `line` is present but `0` falls back to `original_line`;
"line equals the record's line whenever it is non-null" is false. -/
theorem c5_counterexample :
    ¬ (∀ (raw : List RawReviewComment) (rs : List Int),
        ∀ rc ∈ assembleReviewComments raw rs, ∀ c ∈ raw,
          c.in_reply_to_id = none → c.id = rc.id → c.line ≠ none → rc.line = c.line) := by
  intro h
  have h1 := h [c5Rec] [] c5Out (by decide) c5Rec (by decide) (by decide) (by decide) (by decide)
  exact absurd h1 (by decide)

/-! ### Concrete witness data -/

/-- Sample input: top-level comment 1 by alice. -/
def w1a : RawReviewComment :=
  { id := 1, user_login := "alice", path := "f.py", line := some 3,
    original_line := none, body := "b1", diff_hunk := some "h1",
    position := some 2, in_reply_to_id := none }

/-- Sample input: reply 2 by bob to comment 1. -/
def w1b : RawReviewComment :=
  { id := 2, user_login := "bob", path := "f.py", line := none,
    original_line := none, body := "r1", diff_hunk := none,
    position := none, in_reply_to_id := some 1 }

/-- Sample input: top-level comment 3 by carol with no replies. -/
def w1c : RawReviewComment :=
  { id := 3, user_login := "carol", path := "g.py", line := none,
    original_line := some 7, body := "b3", diff_hunk := none,
    position := none, in_reply_to_id := none }

/-- Sample input: reply 4 by dan to comment 1. -/
def w1d : RawReviewComment :=
  { id := 4, user_login := "dan", path := "f.py", line := none,
    original_line := none, body := "r2", diff_hunk := none,
    position := none, in_reply_to_id := some 1 }

/-- A small mixed input: two top-level comments, two replies to the
first. -/
def w1raw : List RawReviewComment := [w1a, w1b, w1c, w1d]

/-- The first assembled output comment for `w1raw` with an empty
resolved set. -/
def w1out : ReviewComment :=
  { id := 1, author := "alice", path := "f.py", line := some 3, body := "b1",
    diff_hunk := "h1", outdated := false, resolved := false,
    replies := [{ id := 2, author := "bob", body := "r1" },
      { id := 4, author := "dan", body := "r2" }] }

theorem c1_witness :
    w1out.replies = repliesFor w1raw w1out.id ∧
    ∀ r ∈ w1out.replies, ∃ c ∈ w1raw, c.in_reply_to_id = some w1out.id ∧ r = mkReply c :=
  c1_reply_threading w1raw [] w1out (by decide)

/-- Sample thread pages: page 1 (has a next page) holds a resolved
thread with first comment 5 and a resolved zero-comment thread; page 2
(final) holds an unresolved thread. -/
def w2pages : List ThreadPage :=
  [{ nodes := [{ isResolved := true, comments := [{ databaseId := 5 }] },
      { isResolved := true, comments := [] }], hasNextPage := true },
    { nodes := [{ isResolved := false, comments := [{ databaseId := 7 }] }],
      hasNextPage := false }]

theorem c2_witness :
    chainWF w2pages = true ∧
    (5 ∈ fetch_resolved_thread_ids w2pages ↔
      ∃ p ∈ w2pages, ∃ t ∈ p.nodes,
        t.isResolved = true ∧ ∃ c cs, t.comments = c :: cs ∧ c.databaseId = 5) :=
  ⟨by decide, c2_resolved_thread_ids w2pages (by decide) 5⟩

/-- The spec's resolution scenario: top-level comments 100, 101, 102. -/
def w3raw : List RawReviewComment :=
  [{ id := 100, user_login := "u1", path := "p", line := none, original_line := none,
     body := "m1", diff_hunk := none, position := some 1, in_reply_to_id := none },
   { id := 101, user_login := "u2", path := "p", line := none, original_line := none,
     body := "m2", diff_hunk := none, position := some 1, in_reply_to_id := none },
   { id := 102, user_login := "u3", path := "p", line := none, original_line := none,
     body := "m3", diff_hunk := none, position := some 1, in_reply_to_id := none }]

/-- The output comment for id 101 with resolved set `{101}`. -/
def w3out101 : ReviewComment :=
  { id := 101, author := "u2", path := "p", line := none, body := "m2",
    diff_hunk := "", outdated := false, resolved := true, replies := [] }

theorem c3_witness :
    ((assembleReviewComments w3raw [101]).map (fun rc => (rc.id, rc.resolved))
      = [(100, false), (101, true), (102, false)]) ∧
    (w3out101.resolved = true ↔ w3out101.id ∈ [101]) :=
  ⟨by decide, c3_resolved_flag w3raw [101] w3out101 (by decide)⟩

theorem c4_witness :
    (∃ c ∈ w1raw, c.in_reply_to_id = none ∧ c.id = w1out.id ∧
      (w1out.outdated = true ↔ c.position = none)) ∧
    ((assembleReviewComments w1raw [3]).map ReviewComment.outdated
      = (assembleReviewComments w1raw []).map ReviewComment.outdated) :=
  ⟨(c4_outdated_iff w1raw [3] []).1 w1out (by decide), (c4_outdated_iff w1raw [3] []).2⟩

/-- The spec's line-fallback example: `line: null, original_line: 42`. -/
def w5 : RawReviewComment :=
  { id := 9, user_login := "eve", path := "h.py", line := none,
    original_line := some 42, body := "m", diff_hunk := none,
    position := none, in_reply_to_id := none }

/-- The output comment for `w5`: its `line` is 42. -/
def w5out : ReviewComment :=
  { id := 9, author := "eve", path := "h.py", line := some 42, body := "m",
    diff_hunk := "", outdated := true, resolved := false, replies := [] }

theorem c5_witness :
    ∃ c ∈ [w5], c.in_reply_to_id = none ∧ c.id = w5out.id ∧
      (∀ m : Int, c.line = some m → m ≠ 0 → w5out.line = some m) ∧
      ((c.line = none ∨ c.line = some 0) → w5out.line = c.original_line) :=
  c5_line_fallback [w5] [] w5out (by decide)

/-- Orphan-reply input: a top-level comment 1 and a reply whose parent
id 99 matches no top-level record. -/
def w6raw : List RawReviewComment :=
  [{ id := 1, user_login := "a", path := "p", line := none, original_line := none,
     body := "t", diff_hunk := none, position := none, in_reply_to_id := none },
   { id := 2, user_login := "b", path := "p", line := none, original_line := none,
     body := "r", diff_hunk := none, position := none, in_reply_to_id := some 99 }]

/-- The single output comment for `w6raw`: the orphan reply is
dropped. -/
def w6out : ReviewComment :=
  { id := 1, author := "a", path := "p", line := none, body := "t",
    diff_hunk := "", outdated := true, resolved := false, replies := [] }

theorem c6_witness :
    w6out.id ≠ 99 ∧
    ∀ r ∈ w6out.replies, ∃ c ∈ w6raw, c.in_reply_to_id = some w6out.id ∧ r = mkReply c :=
  c6_orphan_reply_dropped w6raw [] 99 (by decide) w6out (by decide)

theorem c7_witness :
    ((assembleReviewComments w1raw []).map ReviewComment.id).Nodup ∧
    (∀ c ∈ w1raw, c.in_reply_to_id = none →
      ∃ rc ∈ assembleReviewComments w1raw [],
        rc.id = c.id ∧ rc.replies = repliesFor w1raw c.id) ∧
    (∀ rc ∈ assembleReviewComments w1raw [], ∀ r ∈ rc.replies, r.id ≠ rc.id) :=
  ⟨(c7_output_invariants w1raw []).1, (c7_output_invariants w1raw []).2.1,
    (c7_output_invariants w1raw []).2.2 (by decide)⟩

/-- A transport whose GraphQL thread walk fails while everything else
succeeds. -/
def w8t : Transport :=
  { prMeta := Except.ok { title := "T", url := "U", body := "B" }
    threadPages := Except.error "graphql boom"
    reviewRecords := Except.ok []
    issueRecords := Except.ok [] }

theorem c8_witness :
    (exOk (fetch_pr_comments w8t) =
      (exOk w8t.prMeta && exOk w8t.threadPages && exOk w8t.reviewRecords &&
        exOk w8t.issueRecords)) ∧
    (∀ e, fetch_pr_comments w8t = .error e →
      w8t.prMeta = .error e ∨ w8t.threadPages = .error e ∨
        w8t.reviewRecords = .error e ∨ w8t.issueRecords = .error e) :=
  c8_abort_on_transport_failure w8t

theorem c9_witness :
    (parse_pr_ref ["https://github.com/octo/repo/pull/7"] = some ("octo/repo", "7") ↔
      urlDecomp "https://github.com/octo/repo/pull/7" "octo/repo" "7") ∧
    (parsePRUrl "https://github.com/octo/repo/pull/7" = none →
      main_dispatch ["https://github.com/octo/repo/pull/7"] = MainOutcome.usageExit) ∧
    (parsePRUrl "https://github.com/octo/repo/pull/7" = some ("octo/repo", "7") →
      main_dispatch ["https://github.com/octo/repo/pull/7"] =
        MainOutcome.apiRun "octo/repo" "7") :=
  c9_parse_pr_ref "https://github.com/octo/repo/pull/7" "octo/repo" "7"

/-- A fully successful transport snapshot. -/
def w10t : Transport :=
  { prMeta := Except.ok { title := "T", url := "U", body := "B" }
    threadPages := Except.ok [{ nodes := [], hasNextPage := false }]
    reviewRecords := Except.ok w1raw
    issueRecords := Except.ok [] }

theorem c10_witness :
    (fetch_pr_comments w10t = fetch_pr_comments w10t) ∧
    (assembleReviewComments w1raw [1, 1] = assembleReviewComments w1raw [1]) := by
  have h := c10_deterministic w10t w10t w1raw [1, 1] [1]
  refine ⟨h.1 rfl rfl rfl rfl, h.2 ?_⟩
  intro x
  simp [List.mem_cons]
